import Mathlib

/-!
Shallow embedding of the `gb` build orchestrator (src/main.rs, src/tree_sitter.rs)
and proofs about its specification claims.

Strings manipulated byte-wise by the Rust code (catalog lines) are modelled as
`List Char`; all catalog text involved is ASCII, so byte indices and character
indices coincide.  Filesystem and subprocess effects are modelled by explicit
state passing (`St`) with an event trace; fallible operations return
`Except String α` carrying the error message built by the source.
-/

set_option maxHeartbeats 1000000

namespace Gb

/-- Split a character list on a separator; always returns at least one part. -/
def splitOnChar (sep : Char) : List Char → List (List Char)
  | [] => [[]]
  | c :: cs => if c = sep then [] :: splitOnChar sep cs
               else (splitOnChar sep cs).modifyHead (c :: ·)

/-- Join parts with a separator character (inverse of `splitOnChar`). -/
def joinWithChar (sep : Char) : List (List Char) → List Char
  | [] => []
  | [l] => l
  | l :: l' :: ls => l ++ sep :: joinWithChar sep (l' :: ls)

/-- Stem of a file name: the portion before the last dot, unless that portion is
empty, in which case the whole name; mirrors `std::path::Path::file_stem` /
`with_extension`'s stem computation. -/
def fileStem (f : String) : String :=
  match splitOnChar '.' f.toList with
  | [] => f
  | [_] => f
  | parts =>
    let stem := joinWithChar '.' parts.dropLast
    if stem = [] then f else String.mk stem

/-- `PathBuf::with_extension`: replace (or append) the extension of a file name. -/
def stringWithExtension (f e : String) : String := fileStem f ++ "." ++ e

/-- Last path component (the file name) of a `/`-separated path string. -/
def lastComponent (p : String) : String :=
  String.mk ((splitOnChar '/' p.toList).getLastD [])

/-- `Path::file_name`, as an `Option`. -/
def pathFileName (p : String) : Option String :=
  let name := lastComponent p
  if name = "" ∨ name = "." ∨ name = ".." then none else some name

/-- `Path::file_stem`, as an `Option`. -/
def pathFileStem (p : String) : Option String := (pathFileName p).map fileStem

/-! ### The catalog rewrite (`move_work_obj93_to_build_directory`, pure part)

Rust's `str::lines` splits at `'\n'`, strips a `'\r'` immediately preceding each
`'\n'`, and does not yield a final empty line for a trailing terminator.  We
model it on `List Char`. -/

/-- Split a character list on `'\n'`; always returns at least one part. -/
def splitNl : List Char → List (List Char)
  | [] => [[]]
  | c :: cs => if c = '\n' then [] :: splitNl cs else (splitNl cs).modifyHead (c :: ·)

/-- Drop one trailing `'\r'` (the `\r\n` line-terminator case of `str::lines`). -/
def stripCr (l : List Char) : List Char := if l.getLast? = some '\r' then l.dropLast else l

/-- Model of Rust `str::lines`: every part except an unterminated final part has
its terminator (and a preceding `'\r'`) removed; a trailing terminator yields no
final empty line. -/
def rustLines (s : List Char) : List (List Char) :=
  if s = [] then []
  else if s.getLast? = some '\n' then ((splitNl s).dropLast).map stripCr
  else ((splitNl s).dropLast).map stripCr ++ [(splitNl s).getLastD []]

/-- Model of `Vec::join("\n")` on lines. -/
def joinNl : List (List Char) → List Char
  | [] => []
  | [l] => l
  | l :: l' :: ls => l ++ '\n' :: joinNl (l' :: ls)

/-- The literal marker `file . "` (the source's `PREFIX` constant). -/
def catalogMarker : List Char := "file . \"".toList

/-- One line of the catalog rewrite: the source checks `line.starts_with(PREFIX)`
and then does `string.insert_str(PREFIX.len(), "../../")`. -/
def relocateLine (line : List Char) : List Char :=
  if catalogMarker.isPrefixOf line then
    line.take catalogMarker.length ++ ("../../".toList ++ line.drop catalogMarker.length)
  else line

/-- The full catalog text rewrite: `file.lines()`, patch each line, `join("\n")`. -/
def rewriteCatalog (s : List Char) : List Char :=
  joinNl ((rustLines s).map relocateLine)

/-- Modelled from the spec's words (for comparison with `relocateLine`): a line
beginning with the marker has `../../` inserted immediately after the marker;
other lines are unchanged. -/
def relocateLineSpec (line : List Char) : List Char :=
  if catalogMarker.isPrefixOf line then
    catalogMarker ++ ("../../".toList ++ line.drop catalogMarker.length)
  else line

theorem isPrefixOf_exists_append :
    ∀ (l₁ l₂ : List Char), l₁.isPrefixOf l₂ = true → ∃ t, l₂ = l₁ ++ t := by
  intro l₁
  induction l₁ with
  | nil => intro l₂ _; exact ⟨l₂, rfl⟩
  | cons a l ih =>
    intro l₂ h
    cases l₂ with
    | nil => exact absurd h (by simp [List.isPrefixOf])
    | cons b t =>
      simp only [List.isPrefixOf, Bool.and_eq_true, beq_iff_eq] at h
      obtain ⟨rfl, h2⟩ := h
      obtain ⟨t', ht⟩ := ih t h2
      exact ⟨t', by rw [ht]; rfl⟩

theorem relocateLine_eq_spec (line : List Char) : relocateLine line = relocateLineSpec line := by
  unfold relocateLine relocateLineSpec
  by_cases h : catalogMarker.isPrefixOf line
  · simp only [h, if_true]
    obtain ⟨t, ht⟩ := isPrefixOf_exists_append _ _ h
    subst ht
    rw [List.take_left]
  · simp [h]

/-- C1: for every input catalog text, the rewrite patches exactly the lines that
begin with the literal marker `file . "`, inserting `../../` immediately after
the marker, and leaves every other line byte-for-byte unchanged. -/
theorem catalog_rewrite_per_line (s : List Char) :
    rewriteCatalog s = joinNl ((rustLines s).map relocateLineSpec) := by
  unfold rewriteCatalog
  congr 1
  exact List.map_congr_left fun l _ => relocateLine_eq_spec l

/-! ### Trailing-newline behaviour of the catalog rewrite (claim C9) -/

theorem splitNl_ne_nil (s : List Char) : splitNl s ≠ [] := by
  induction s with
  | nil => simp [splitNl]
  | cons c cs ih =>
    unfold splitNl
    by_cases h : c = '\n'
    · simp [h]
    · simp only [h, if_false]
      cases hs : splitNl cs with
      | nil => exact absurd hs ih
      | cons a l => simp [List.modifyHead]

theorem splitNl_append_nl (s : List Char) : splitNl (s ++ ['\n']) = splitNl s ++ [[]] := by
  induction s with
  | nil => simp [splitNl]
  | cons c cs ih =>
    unfold splitNl
    by_cases h : c = '\n'
    · simp [h, ih]
    · simp only [List.cons_append, h, if_false, ih]
      cases hs : splitNl cs with
      | nil => exact absurd hs (splitNl_ne_nil cs)
      | cons a l => simp [List.modifyHead]

theorem splitNl_of_no_nl (s : List Char) (h : '\n' ∉ s) : splitNl s = [s] := by
  induction s with
  | nil => simp [splitNl]
  | cons c cs ih =>
    unfold splitNl
    have hc : ¬ c = '\n' := fun hc => h (hc ▸ List.mem_cons_self c cs)
    have hcs : '\n' ∉ cs := fun hm => h (List.mem_cons_of_mem _ hm)
    simp [hc, ih hcs, List.modifyHead]

theorem splitNl_joinNl (parts : List (List Char)) (hne : parts ≠ [])
    (h : ∀ p ∈ parts, '\n' ∉ p) : splitNl (joinNl parts) = parts := by
  induction parts with
  | nil => exact absurd rfl hne
  | cons p ps ih =>
    cases ps with
    | nil => exact splitNl_of_no_nl p (h p (List.mem_cons_self _ _))
    | cons q qs =>
      have hp : '\n' ∉ p := h p (List.mem_cons_self _ _)
      have : joinNl (p :: q :: qs) = p ++ '\n' :: joinNl (q :: qs) := rfl
      rw [this]
      have key : ∀ (x : List Char) (y : List Char), '\n' ∉ x →
          splitNl (x ++ '\n' :: y) = x :: splitNl y := by
        intro x
        induction x with
        | nil => intro y _; simp [splitNl]
        | cons c cs ihx =>
          intro y hx
          have hc : ¬ c = '\n' := fun hc => hx (hc ▸ List.mem_cons_self c cs)
          have hcs : '\n' ∉ cs := fun hm => hx (List.mem_cons_of_mem _ hm)
          have e : splitNl ((c :: cs) ++ '\n' :: y) =
              (splitNl (cs ++ '\n' :: y)).modifyHead (c :: ·) := by
            simp [splitNl, hc]
          rw [e, ihx y hcs]
          simp [List.modifyHead]
      rw [key p (joinNl (q :: qs)) hp]
      rw [ih (by simp) (fun r hr => h r (List.mem_cons_of_mem _ hr))]

theorem joinNl_ne_nil_of_last (parts : List (List Char)) (hne : parts ≠ [])
    (hlast : parts.getLastD [] ≠ []) : joinNl parts ≠ [] := by
  induction parts with
  | nil => exact absurd rfl hne
  | cons p ps ih =>
    cases ps with
    | nil =>
      simpa [joinNl] using hlast
    | cons q qs =>
      have : joinNl (p :: q :: qs) = p ++ '\n' :: joinNl (q :: qs) := rfl
      rw [this]
      simp

theorem joinNl_getLast?_of_last (parts : List (List Char)) (hne : parts ≠ [])
    (hlast : parts.getLastD [] ≠ []) :
    (joinNl parts).getLast? = (parts.getLastD []).getLast? := by
  induction parts with
  | nil => exact absurd rfl hne
  | cons p ps ih =>
    cases ps with
    | nil => simp [joinNl]
    | cons q qs =>
      have hj : joinNl (p :: q :: qs) = p ++ '\n' :: joinNl (q :: qs) := rfl
      have hlast' : (q :: qs).getLastD [] ≠ [] := by
        simpa [List.getLastD_cons] using hlast
      have hne' : joinNl (q :: qs) ≠ [] := joinNl_ne_nil_of_last _ (by simp) hlast'
      obtain ⟨r, rs, hr⟩ : ∃ r rs, joinNl (q :: qs) = r :: rs := by
        cases hjq : joinNl (q :: qs) with
        | nil => exact absurd hjq hne'
        | cons r rs => exact ⟨r, rs, rfl⟩
      have ihv := ih (by simp) hlast'
      obtain ⟨x, hx⟩ := Option.isSome_iff_exists.mp (List.getLast?_isSome.mpr hlast')
      rw [hj, List.getLast?_append, hr, List.getLast?_cons_cons, ← hr, ihv, hx, Option.or_some]
      simpa [List.getLastD_cons] using hx.symm

theorem getLastD_mem_of_ne_nil {α : Type} (l : List α) (hne : l ≠ []) (d : α) :
    l.getLastD d ∈ l := by
  cases l with
  | nil => exact absurd rfl hne
  | cons a l =>
    rw [List.getLastD_cons]
    exact List.getLastD_mem_cons l a

/-- A well-formed catalog text (nonempty lines list, no line containing a line
feed or ending in a carriage return, nonempty final line) round-trips through
the `str::lines` model. -/
theorem rustLines_joinNl (parts : List (List Char)) (hne : parts ≠ [])
    (h : ∀ p ∈ parts, '\n' ∉ p ∧ stripCr p = p) (hlast : parts.getLastD [] ≠ []) :
    rustLines (joinNl parts) = parts := by
  have hs : joinNl parts ≠ [] := joinNl_ne_nil_of_last parts hne hlast
  have hget : (joinNl parts).getLast? = (parts.getLastD []).getLast? :=
    joinNl_getLast?_of_last parts hne hlast
  have hnl : (joinNl parts).getLast? ≠ some '\n' := by
    rw [hget]
    intro hcontra
    have : '\n' ∈ parts.getLastD [] := List.mem_of_getLast?_eq_some hcontra
    exact (h _ (getLastD_mem_of_ne_nil parts hne [])).1 this
  have hsplit : splitNl (joinNl parts) = parts :=
    splitNl_joinNl parts hne (fun p hp => (h p hp).1)
  unfold rustLines
  rw [if_neg hs, if_neg hnl, hsplit]
  obtain ⟨l, hl⟩ : ∃ l, parts = l ++ [parts.getLastD []] := by
    cases parts with
    | nil => exact absurd rfl hne
    | cons a l =>
      refine ⟨(a :: l).dropLast, ?_⟩
      rw [List.getLastD_eq_getLast? _ _, List.getLast?_eq_getLast _ (by simp), Option.getD_some]
      exact (List.dropLast_concat_getLast (by simp)).symm
  rw [hl, List.dropLast_concat, List.getLastD_concat]
  congr 1
  exact (List.map_congr_left fun p hp => (h p (hl ▸ List.mem_append_left _ hp)).2).trans
    (List.map_id' _)

theorem rustLines_joinNl_nl (parts : List (List Char)) (hne : parts ≠ [])
    (h : ∀ p ∈ parts, '\n' ∉ p ∧ stripCr p = p) :
    rustLines (joinNl parts ++ ['\n']) = parts := by
  have hs : joinNl parts ++ ['\n'] ≠ [] := by simp
  have hnl : (joinNl parts ++ ['\n']).getLast? = some '\n' := List.getLast?_concat _
  have hsplit : splitNl (joinNl parts ++ ['\n']) = splitNl (joinNl parts) ++ [[]] :=
    splitNl_append_nl _
  have hsj : splitNl (joinNl parts) = parts :=
    splitNl_joinNl parts hne (fun p hp => (h p hp).1)
  unfold rustLines
  rw [if_neg hs, if_pos hnl, hsplit, hsj, List.dropLast_concat]
  exact (List.map_congr_left fun p hp => (h p hp).2).trans (List.map_id' _)

theorem rustLines_joinNl_two_nl (parts : List (List Char)) (hne : parts ≠ [])
    (h : ∀ p ∈ parts, '\n' ∉ p ∧ stripCr p = p) :
    rustLines (joinNl parts ++ ['\n', '\n']) = parts ++ [[]] := by
  have hs : joinNl parts ++ ['\n', '\n'] ≠ [] := by simp
  have he : joinNl parts ++ ['\n', '\n'] = (joinNl parts ++ ['\n']) ++ ['\n'] := by simp
  have hnl : (joinNl parts ++ ['\n', '\n']).getLast? = some '\n' := by
    rw [he]; exact List.getLast?_concat _
  have hsplit : splitNl (joinNl parts ++ ['\n', '\n']) = (splitNl (joinNl parts) ++ [[]]) ++ [[]] := by
    rw [he, splitNl_append_nl, splitNl_append_nl]
  have hsj : splitNl (joinNl parts) = parts :=
    splitNl_joinNl parts hne (fun p hp => (h p hp).1)
  unfold rustLines
  rw [if_neg hs, if_pos hnl, hsplit, hsj, List.dropLast_concat, List.map_append]
  rw [List.map_congr_left fun p hp => (h p hp).2]
  simp [stripCr]

theorem joinNl_concat_nil (xs : List (List Char)) (hne : xs ≠ []) :
    joinNl (xs ++ [[]]) = joinNl xs ++ ['\n'] := by
  induction xs with
  | nil => exact absurd rfl hne
  | cons x ys ih =>
    cases ys with
    | nil => rfl
    | cons y zs =>
      have h1 : joinNl ((x :: y :: zs) ++ [[]]) = x ++ '\n' :: joinNl ((y :: zs) ++ [[]]) := rfl
      have h2 : joinNl (x :: y :: zs) = x ++ '\n' :: joinNl (y :: zs) := rfl
      rw [h1, h2, ih (by simp)]
      simp

/-- C9 counterexample: for the input `"a\n\n"`, which ends with a newline, the
rewritten catalog text is `"a\n"`, which still ends with a newline — refuting
the claim that the rewritten file never ends with a newline. -/
theorem catalog_rewrite_trailing_newline_cex :
    ("a\n\n".toList).getLast? = some '\n' ∧
      rewriteCatalog ("a\n\n".toList) = "a\n".toList ∧
      (rewriteCatalog ("a\n\n".toList)).getLast? = some '\n' := by
  refine ⟨by decide, by decide, by decide⟩

/-- C9 (amended): the rewritten catalog is the input's lines joined with a
single `\n`; one trailing newline is not preserved (for a well-formed catalog,
output with and without the final newline coincide), but when the original ends
with an empty final line (two trailing newlines) the rewritten file still ends
with a newline. -/
theorem catalog_rewrite_trailing_newline (parts : List (List Char)) (hne : parts ≠ [])
    (h : ∀ p ∈ parts, '\n' ∉ p ∧ stripCr p = p) (hlast : parts.getLastD [] ≠ []) :
    rewriteCatalog (joinNl parts ++ ['\n']) = rewriteCatalog (joinNl parts) ∧
      rewriteCatalog (joinNl parts ++ ['\n', '\n']) = rewriteCatalog (joinNl parts) ++ ['\n'] := by
  have h1 : rewriteCatalog (joinNl parts) = joinNl (parts.map relocateLine) := by
    unfold rewriteCatalog
    rw [rustLines_joinNl parts hne h hlast]
  have h2 : rewriteCatalog (joinNl parts ++ ['\n']) = joinNl (parts.map relocateLine) := by
    unfold rewriteCatalog
    rw [rustLines_joinNl_nl parts hne h]
  have h3 : rewriteCatalog (joinNl parts ++ ['\n', '\n']) =
      joinNl (parts.map relocateLine) ++ ['\n'] := by
    unfold rewriteCatalog
    rw [rustLines_joinNl_two_nl parts hne h, List.map_append]
    have hrn : relocateLine [] = [] := by decide
    simp only [List.map_cons, List.map_nil, hrn]
    exact joinNl_concat_nil _ (by simp [hne])
  exact ⟨h2.trans h1.symm, h3.trans (by rw [h1])⟩

/-- Witness for the amended C9 theorem at the concrete single-line catalog `"a"`. -/
theorem catalog_rewrite_trailing_newline_witness :
    rewriteCatalog ("a\n".toList) = rewriteCatalog ("a".toList) ∧
      rewriteCatalog ("a\n\n".toList) = rewriteCatalog ("a".toList) ++ ['\n'] :=
  catalog_rewrite_trailing_newline [['a']] (by decide) (by decide) (by decide)

/-! ### Effectful model of the pipeline (`main.rs`)

Filesystem contents and spawned subprocesses are the externally visible
effects.  A state `St` carries the files present on disk (path ↦ contents) and
a chronological trace of effect events.  Exit statuses of the external
toolchain are an oracle `Toolchain`; spawning itself is assumed to succeed
(spawn failure is an error path none of the claims under study concerns). -/

inductive Event where
  | spawn (prog : String) (args : List String) (cwd : Option String)
  | wait (prog : String)
  | createDirAll (dir : String)
  | fsWrite (path : String)
  | fsRemove (path : String)
  | fsRename (src : String) (dst : String)
deriving DecidableEq

structure St where
  files : List (String × List Char)
  trace : List Event
deriving DecidableEq

/-- Exit statuses the external toolchain will report, one per stage. -/
structure Toolchain where
  analyzeOk : Bool
  elaborateOk : Bool
  runOk : Bool
deriving DecidableEq

def fsLookup (fsm : List (String × List Char)) (p : String) : Option (List Char) :=
  match fsm with
  | [] => none
  | (k, v) :: rest => if k = p then some v else fsLookup rest p

def fsErase : List (String × List Char) → String → List (String × List Char)
  | [], _ => []
  | (k, v) :: rest, p => if k = p then fsErase rest p else (k, v) :: fsErase rest p

def stWrite (st : St) (p : String) (c : List Char) : St :=
  { files := (p, c) :: fsErase st.files p, trace := st.trace ++ [Event.fsWrite p] }

def stRemove (st : St) (p : String) : Option St :=
  match fsLookup st.files p with
  | none => none
  | some _ => some { files := fsErase st.files p, trace := st.trace ++ [Event.fsRemove p] }

def stRename (st : St) (src dst : String) : Option St :=
  match fsLookup st.files src with
  | none => none
  | some c => some { files := (dst, c) :: fsErase (fsErase st.files src) dst,
                     trace := st.trace ++ [Event.fsRename src dst] }

def stDirAll (st : St) (d : String) : St :=
  { st with trace := st.trace ++ [Event.createDirAll d] }

def stSpawn (st : St) (prog : String) (args : List String) (cwd : Option String) : St :=
  { st with trace := st.trace ++ [Event.spawn prog args cwd] }

def stWait (st : St) (prog : String) : St :=
  { st with trace := st.trace ++ [Event.wait prog] }

/-- `move_work_obj93_to_build_directory`: read the catalog, rewrite it, write it
under `build/root/`, delete the original. -/
def move_work_obj93_to_build_directory (st : St) : Except String Unit × St :=
  match fsLookup st.files "work-obj93.cf" with
  | none => (Except.error "could not load work-obj93.cf, which is a necessary compliation artifact to move it to the build dir", st)
  | some content =>
    let full := rewriteCatalog content
    let st := stDirAll st "build/root/"
    let st := stWrite st "build/root/work-obj93.cf" full
    match stRemove st "work-obj93.cf" with
    | none => (Except.error "could not remove work-obj93.cf", st)
    | some st => (Except.ok (), st)

/-- Loop body of `move_artifacts_to_build_directory`: for each analyzed file,
rename `<stem>.o` into `build/root/`. -/
def moveArtifactsLoop (files : List String) (st : St) : Except String Unit × St :=
  match files with
  | [] => (Except.ok (), st)
  | f :: rest =>
    match pathFileStem f with
    | none => (Except.error ("could not get file stem for " ++ f), st)
    | some stem =>
      let objPath := stringWithExtension stem "o"
      match stRename st objPath ("build/root/" ++ objPath) with
      | none => (Except.error ("could not move generated build artifact `\"" ++ objPath ++ "\"` to build dir"), st)
      | some st => moveArtifactsLoop rest st

def move_artifacts_to_build_directory (files : List String) (st : St) : Except String Unit × St :=
  moveArtifactsLoop files (stDirAll st "build/root/")

/-- `cleanup_build_dir`: catalog relocation, then object relocation (this is the
order in the source). -/
def cleanup_build_dir (files : List String) (st : St) : Except String Unit × St :=
  match move_work_obj93_to_build_directory st with
  | (Except.error e, st) => (Except.error e, st)
  | (Except.ok _, st) => move_artifacts_to_build_directory files st

/-- `compile_vhd_files`: spawn `ghdl -a <files>`, wait, then call
`cleanup_build_dir` (note: before inspecting the exit status), then report a
compile failure if the exit status was non-zero. -/
def compile_vhd_files (tc : Toolchain) (files : List String) (st : St) :
    Except String Unit × St :=
  let st := stSpawn st "ghdl" ("-a" :: files) none
  let st := stWait st "ghdl"
  match cleanup_build_dir files st with
  | (Except.error e, st) => (Except.error e, st)
  | (Except.ok _, st) =>
    if tc.analyzeOk then (Except.ok (), st)
    else (Except.error "GHDL didn't compile successfully.", st)

/-- `elaborate_vhdl_solution` (the platform-specific macOS linker flag is
omitted: we model the non-macOS invocation). -/
def elaborate_vhdl_solution (tc : Toolchain) (file_to_execute : Option String) (st : St) :
    Except String String × St :=
  match file_to_execute with
  | none => (Except.error "must have a file chosen to execute in order to elaborate. Please set `execute = \"<YOUR_FILE>\" in gb.toml", st)
  | some file_to_exec =>
    match pathFileStem file_to_exec with
    | none => (Except.error "could not get base filename", st)
    | some stem =>
      let st := stSpawn st "ghdl" ["-e", stem] (some "build/root/")
      let st := stWait st "ghdl"
      if tc.elaborateOk then (Except.ok file_to_exec, st)
      else (Except.error "GHDL didn't compile successfully.", st)

def execute_vhdl_solution (tc : Toolchain) (file_to_exec : String) (vcd : Option String)
    (st : St) : Except String Unit × St :=
  match pathFileStem file_to_exec with
  | none => (Except.error "could not get base filename", st)
  | some stem =>
    let vcdArgs := match vcd with
      | some v => ["--vcd=" ++ v]
      | none => []
    let st := stSpawn st "ghdl" ("-r" :: stem :: vcdArgs) (some "build/root/")
    let st := stWait st "ghdl"
    if tc.runOk then (Except.ok (), st)
    else (Except.error "GHDL didn't compile successfully.", st)

/-- `launch_vcd_viewer`: note that after spawning the viewer the source calls
`.wait()` on the child. -/
def launch_vcd_viewer (vcd : Option String) (default_vcd_viewer : Option String)
    (st : St) : Except String Unit × St :=
  match vcd with
  | none => (Except.error "vcd-name not set in target for toml. Cannot launch vcd viewer", st)
  | some v =>
    match default_vcd_viewer with
    | none => (Except.error "top level `default.vcd-viewer` not set in target for toml. Cannot launch vcd viewer", st)
    | some viewer =>
      if viewer = "gtkwave" then
        let st := stSpawn st "gtkwave" ["build/root/" ++ v] none
        let st := stWait st "gtkwave"
        (Except.ok (), st)
      else
        (Except.error "The only supported wave viewer is gtkwave. Please set `default.vcd-viewer = \"gtkwave\"`", st)

/-- The `Run` command's stage sequence from `validate`: analyze, elaborate,
execute, with the `--vcd` value `vcd.clone().or(vcd_output_name)`. -/
def runCommandRun (tc : Toolchain) (files : List String) (file_to_execute : Option String)
    (cmdVcd manifestVcd : Option String) (st : St) : Except String Unit × St :=
  match compile_vhd_files tc files st with
  | (Except.error e, st) => (Except.error e, st)
  | (Except.ok _, st) =>
    match elaborate_vhdl_solution tc file_to_execute st with
    | (Except.error e, st) => (Except.error e, st)
    | (Except.ok file_to_exec, st) =>
      execute_vhdl_solution tc file_to_exec (Option.or cmdVcd manifestVcd) st

/-- The `Wave` command's stage sequence from `validate`: analyze, elaborate,
execute, then launch the viewer, with `vcd = vcd.clone().or(vcd_output_name)`
computed once and used for both execute and the viewer. -/
def runCommandWave (tc : Toolchain) (files : List String) (file_to_execute : Option String)
    (cmdVcd manifestVcd default_vcd_viewer : Option String) (st : St) :
    Except String Unit × St :=
  let vcd := Option.or cmdVcd manifestVcd
  match compile_vhd_files tc files st with
  | (Except.error e, st) => (Except.error e, st)
  | (Except.ok _, st) =>
    match elaborate_vhdl_solution tc file_to_execute st with
    | (Except.error e, st) => (Except.error e, st)
    | (Except.ok file_to_exec, st) =>
      match execute_vhdl_solution tc file_to_exec vcd st with
      | (Except.error e, st) => (Except.error e, st)
      | (Except.ok _, st) => launch_vcd_viewer vcd default_vcd_viewer st

/-! ### Lemmas about the modelled filesystem -/

theorem fsLookup_fsErase_ne (fsm : List (String × List Char)) (p q : String) (h : p ≠ q) :
    fsLookup (fsErase fsm q) p = fsLookup fsm p := by
  induction fsm with
  | nil => rfl
  | cons kv rest ih =>
    obtain ⟨k, v⟩ := kv
    by_cases hk : k = q
    · have hkp : ¬ k = p := fun he => h (he ▸ hk)
      simp [fsErase, fsLookup, hk, hkp, ih, Ne.symm h]
    · by_cases hkp : k = p
      · simp [fsErase, fsLookup, hk, hkp, h]
      · simp [fsErase, fsLookup, hk, hkp, ih]

theorem fsLookup_fsErase_self (fsm : List (String × List Char)) (q : String) :
    fsLookup (fsErase fsm q) q = none := by
  induction fsm with
  | nil => rfl
  | cons kv rest ih =>
    obtain ⟨k, v⟩ := kv
    by_cases hk : k = q
    · simp [fsErase, hk, ih]
    · simp [fsErase, fsLookup, hk, ih]

/-- Successful catalog relocation fully characterised: the rewritten catalog is
written under `build/root/` and the original is removed. -/
theorem move_work_ok (st : St) (content : List Char)
    (hcat : fsLookup st.files "work-obj93.cf" = some content) :
    move_work_obj93_to_build_directory st =
      (Except.ok (),
        { files := fsErase (("build/root/work-obj93.cf", rewriteCatalog content) ::
            fsErase st.files "build/root/work-obj93.cf") "work-obj93.cf",
          trace := st.trace ++ [Event.createDirAll "build/root/",
            Event.fsWrite "build/root/work-obj93.cf", Event.fsRemove "work-obj93.cf"] }) := by
  unfold move_work_obj93_to_build_directory
  rw [hcat]
  have hlook : fsLookup (("build/root/work-obj93.cf", rewriteCatalog content) ::
      fsErase st.files "build/root/work-obj93.cf") "work-obj93.cf" = some content := by
    have hne : ("build/root/work-obj93.cf" : String) ≠ "work-obj93.cf" := by decide
    simp only [fsLookup, hne, if_false]
    rw [fsLookup_fsErase_ne st.files "work-obj93.cf" "build/root/work-obj93.cf" (by decide)]
    exact hcat
  simp only [stDirAll, stWrite, stRemove, hlook]
  simp

/-! ### Claim C2: relocation order and the missing-artifact error -/

def stCatalogOnly : St := ⟨[("work-obj93.cf", "x".toList)], []⟩

def stOkBuild : St := ⟨[("work-obj93.cf", "x".toList), ("a.o", [])], []⟩

/-- C2 counterexample: with the catalog present but the expected object artifact
`foo.o` absent, `cleanup_build_dir` does fail with an error naming `foo.o` — but
catalog relocation has already happened (the rewritten catalog is in
`build/root/` and the original is gone), refuting "object relocation first ...
and no catalog relocation occurs". -/
theorem relocation_order_cex :
    (cleanup_build_dir ["foo.vhd"] stCatalogOnly).1 =
      Except.error "could not move generated build artifact `\"foo.o\"` to build dir"
    ∧ fsLookup (cleanup_build_dir ["foo.vhd"] stCatalogOnly).2.files
        "build/root/work-obj93.cf" = some ("x".toList)
    ∧ fsLookup (cleanup_build_dir ["foo.vhd"] stCatalogOnly).2.files "work-obj93.cf" = none := by
  refine ⟨rfl, by decide, by decide⟩

/-- One pass of the object-relocation loop with the missing artifact at an
arbitrary position: every earlier file's object artifact is present (so its
rename succeeds), the loop then fails with the error naming the absent
artifact, and any path distinct from all the moved artifacts and their
destinations is left untouched. -/
theorem moveArtifactsLoop_missing (f : String) (stem : String) :
    ∀ (pre stems rest : List String) (st : St),
      List.Forall₂ (fun g s => pathFileStem g = some s) pre stems →
      (∀ s ∈ stems, (fsLookup st.files (stringWithExtension s "o")).isSome) →
      (stems.map (fun s => stringWithExtension s "o")).Nodup →
      pathFileStem f = some stem →
      fsLookup st.files (stringWithExtension stem "o") = none →
      (∀ s ∈ stems,
        "build/root/" ++ stringWithExtension s "o" ≠ stringWithExtension stem "o") →
      (moveArtifactsLoop (pre ++ f :: rest) st).1 =
        Except.error ("could not move generated build artifact `\"" ++
          stringWithExtension stem "o" ++ "\"` to build dir")
      ∧ ∀ x : String, (∀ s ∈ stems, x ≠ stringWithExtension s "o") →
          (∀ s ∈ stems, x ≠ "build/root/" ++ stringWithExtension s "o") →
          fsLookup (moveArtifactsLoop (pre ++ f :: rest) st).2.files x =
            fsLookup st.files x := by
  intro pre
  induction pre with
  | nil =>
    intro stems rest st hpre hpres hnd hstem habs hdst
    cases hpre
    have hre : stRename st (stringWithExtension stem "o")
        ("build/root/" ++ stringWithExtension stem "o") = none := by
      simp [stRename, habs]
    have hloop : moveArtifactsLoop ([] ++ f :: rest) st =
        (Except.error ("could not move generated build artifact `\"" ++
          stringWithExtension stem "o" ++ "\"` to build dir"), st) := by
      simp only [List.nil_append, moveArtifactsLoop, hstem, hre]
    rw [hloop]
    exact ⟨rfl, fun x _ _ => rfl⟩
  | cons g pre ih =>
    intro stems rest st hpre hpres hnd hstem habs hdst
    cases hpre with
    | cons hgs hpre' =>
      rename_i s stems'
      have hpg : (fsLookup st.files (stringWithExtension s "o")).isSome :=
        hpres s (List.mem_cons_self _ _)
      obtain ⟨c, hc⟩ := Option.isSome_iff_exists.mp hpg
      have hrn : stRename st (stringWithExtension s "o")
          ("build/root/" ++ stringWithExtension s "o") =
          some { files := ("build/root/" ++ stringWithExtension s "o", c) ::
                   fsErase (fsErase st.files (stringWithExtension s "o"))
                     ("build/root/" ++ stringWithExtension s "o"),
                 trace := st.trace ++ [Event.fsRename (stringWithExtension s "o")
                   ("build/root/" ++ stringWithExtension s "o")] } := by
        simp [stRename, hc]
      have hloop : moveArtifactsLoop ((g :: pre) ++ f :: rest) st =
          moveArtifactsLoop (pre ++ f :: rest)
            { files := ("build/root/" ++ stringWithExtension s "o", c) ::
                fsErase (fsErase st.files (stringWithExtension s "o"))
                  ("build/root/" ++ stringWithExtension s "o"),
              trace := st.trace ++ [Event.fsRename (stringWithExtension s "o")
                ("build/root/" ++ stringWithExtension s "o")] } := by
        simp only [List.cons_append, moveArtifactsLoop, hgs, hrn]
        rfl
      have hpass : ∀ x : String, x ≠ stringWithExtension s "o" →
          x ≠ "build/root/" ++ stringWithExtension s "o" →
          fsLookup (("build/root/" ++ stringWithExtension s "o", c) ::
              fsErase (fsErase st.files (stringWithExtension s "o"))
                ("build/root/" ++ stringWithExtension s "o")) x = fsLookup st.files x := by
        intro x hx1 hx2
        have hhd : ¬ ("build/root/" ++ stringWithExtension s "o" = x) :=
          fun he => hx2 he.symm
        simp only [fsLookup, hhd, if_false]
        rw [fsLookup_fsErase_ne _ _ _ hx2, fsLookup_fsErase_ne _ _ _ hx1]
      have hndc : (∀ x ∈ stems',
            ¬ stringWithExtension x "o" = stringWithExtension s "o") ∧
          (stems'.map (fun s' => stringWithExtension s' "o")).Nodup := by
        simpa using hnd
      have hnd' : (stems'.map (fun s' => stringWithExtension s' "o")).Nodup := hndc.2
      have hne_fs : stringWithExtension stem "o" ≠ stringWithExtension s "o" := by
        intro he
        rw [he, hc] at habs
        exact Option.noConfusion habs
      have hpres' : ∀ s' ∈ stems',
          (fsLookup (("build/root/" ++ stringWithExtension s "o", c) ::
              fsErase (fsErase st.files (stringWithExtension s "o"))
                ("build/root/" ++ stringWithExtension s "o")) (stringWithExtension s' "o")).isSome := by
        intro s' hs'
        by_cases hd : "build/root/" ++ stringWithExtension s "o" = stringWithExtension s' "o"
        · simp [fsLookup, hd]
        · rw [hpass _ (hndc.1 s' hs') (fun he => hd he.symm)]
          exact hpres s' (List.mem_cons_of_mem _ hs')
      have habs' : fsLookup (("build/root/" ++ stringWithExtension s "o", c) ::
          fsErase (fsErase st.files (stringWithExtension s "o"))
            ("build/root/" ++ stringWithExtension s "o")) (stringWithExtension stem "o") = none := by
        rw [hpass _ hne_fs (fun he => hdst s (List.mem_cons_self _ _) he.symm)]
        exact habs
      have hdst' : ∀ s' ∈ stems',
          "build/root/" ++ stringWithExtension s' "o" ≠ stringWithExtension stem "o" :=
        fun s' hs' => hdst s' (List.mem_cons_of_mem _ hs')
      have hres := ih stems' rest
        ⟨("build/root/" ++ stringWithExtension s "o", c) ::
            fsErase (fsErase st.files (stringWithExtension s "o"))
              ("build/root/" ++ stringWithExtension s "o"),
          st.trace ++ [Event.fsRename (stringWithExtension s "o")
            ("build/root/" ++ stringWithExtension s "o")]⟩
        hpre' hpres' hnd' hstem habs' hdst'
      rw [hloop]
      refine ⟨hres.1, ?_⟩
      intro x hx1 hx2
      rw [hres.2 x (fun s' hs' => hx1 s' (List.mem_cons_of_mem _ hs'))
        (fun s' hs' => hx2 s' (List.mem_cons_of_mem _ hs'))]
      exact hpass x (hx1 s (List.mem_cons_self _ _)) (hx2 s (List.mem_cons_self _ _))

/-- C2 (amended): per analyze stage, relocation performs catalog relocation
first and object relocation second; if an expected object artifact is absent —
at any position in the analyzed file list, the earlier files' artifacts having
been renamed successfully — relocation fails with an error naming that
artifact, but the catalog has already been relocated into the build directory
by then. -/
theorem relocation_catalog_first (st : St) (content : List Char)
    (pre stems rest : List String) (f stem : String)
    (hcat : fsLookup st.files "work-obj93.cf" = some content)
    (hpre : List.Forall₂ (fun g s => pathFileStem g = some s) pre stems)
    (hstem : pathFileStem f = some stem)
    (hpres : ∀ s ∈ stems, (fsLookup st.files (stringWithExtension s "o")).isSome)
    (hnd : (stems.map (fun s => stringWithExtension s "o")).Nodup)
    (habs : fsLookup st.files (stringWithExtension stem "o") = none)
    (hdstF : ∀ s ∈ stems,
      "build/root/" ++ stringWithExtension s "o" ≠ stringWithExtension stem "o")
    (hFB : stringWithExtension stem "o" ≠ "build/root/work-obj93.cf")
    (hFW : stringWithExtension stem "o" ≠ "work-obj93.cf")
    (hoB : ∀ s ∈ stems, stringWithExtension s "o" ≠ "build/root/work-obj93.cf")
    (hoW : ∀ s ∈ stems, stringWithExtension s "o" ≠ "work-obj93.cf")
    (hdB : ∀ s ∈ stems,
      "build/root/" ++ stringWithExtension s "o" ≠ "build/root/work-obj93.cf")
    (hdW : ∀ s ∈ stems, "build/root/" ++ stringWithExtension s "o" ≠ "work-obj93.cf") :
    (cleanup_build_dir (pre ++ f :: rest) st).1 =
      Except.error ("could not move generated build artifact `\"" ++
        stringWithExtension stem "o" ++ "\"` to build dir")
    ∧ fsLookup (cleanup_build_dir (pre ++ f :: rest) st).2.files "build/root/work-obj93.cf" =
        some (rewriteCatalog content)
    ∧ fsLookup (cleanup_build_dir (pre ++ f :: rest) st).2.files "work-obj93.cf" = none := by
  have hmw := move_work_ok st content hcat
  simp only [cleanup_build_dir, hmw, move_artifacts_to_build_directory]
  have hshape : fsErase (("build/root/work-obj93.cf", rewriteCatalog content) ::
      fsErase st.files "build/root/work-obj93.cf") "work-obj93.cf" =
      ("build/root/work-obj93.cf", rewriteCatalog content) ::
        fsErase (fsErase st.files "build/root/work-obj93.cf") "work-obj93.cf" := by
    have : ¬ (("build/root/work-obj93.cf" : String) = "work-obj93.cf") := by decide
    simp [fsErase, this]
  have hst1 : ∀ x : String, x ≠ "build/root/work-obj93.cf" → x ≠ "work-obj93.cf" →
      fsLookup (fsErase (("build/root/work-obj93.cf", rewriteCatalog content) ::
        fsErase st.files "build/root/work-obj93.cf") "work-obj93.cf") x =
        fsLookup st.files x := by
    intro x h1 h2
    rw [hshape]
    have hhd : ¬ (("build/root/work-obj93.cf" : String) = x) := fun he => h1 he.symm
    simp only [fsLookup, hhd, if_false]
    rw [fsLookup_fsErase_ne _ _ _ h2, fsLookup_fsErase_ne _ _ _ h1]
  have hB : fsLookup (fsErase (("build/root/work-obj93.cf", rewriteCatalog content) ::
      fsErase st.files "build/root/work-obj93.cf") "work-obj93.cf")
      "build/root/work-obj93.cf" = some (rewriteCatalog content) := by
    rw [hshape]
    simp [fsLookup]
  have hW : fsLookup (fsErase (("build/root/work-obj93.cf", rewriteCatalog content) ::
      fsErase st.files "build/root/work-obj93.cf") "work-obj93.cf")
      "work-obj93.cf" = none := fsLookup_fsErase_self _ _
  have hpres1 : ∀ s ∈ stems,
      (fsLookup (fsErase (("build/root/work-obj93.cf", rewriteCatalog content) ::
        fsErase st.files "build/root/work-obj93.cf") "work-obj93.cf")
        (stringWithExtension s "o")).isSome := by
    intro s hs
    rw [hst1 _ (hoB s hs) (hoW s hs)]
    exact hpres s hs
  have habs1 : fsLookup (fsErase (("build/root/work-obj93.cf", rewriteCatalog content) ::
      fsErase st.files "build/root/work-obj93.cf") "work-obj93.cf")
      (stringWithExtension stem "o") = none := by
    rw [hst1 _ hFB hFW]
    exact habs
  have hres := moveArtifactsLoop_missing f stem pre stems rest
    ⟨fsErase (("build/root/work-obj93.cf", rewriteCatalog content) ::
        fsErase st.files "build/root/work-obj93.cf") "work-obj93.cf",
      st.trace ++ [Event.createDirAll "build/root/", Event.fsWrite "build/root/work-obj93.cf",
        Event.fsRemove "work-obj93.cf"] ++ [Event.createDirAll "build/root/"]⟩
    hpre hpres1 hnd hstem habs1 hdstF
  exact ⟨hres.1,
    (hres.2 "build/root/work-obj93.cf" (fun s hs => (hoB s hs).symm)
      (fun s hs => (hdB s hs).symm)).trans hB,
    (hres.2 "work-obj93.cf" (fun s hs => (hoW s hs).symm)
      (fun s hs => (hdW s hs).symm)).trans hW⟩

/-- Witness for the amended C2 theorem: the catalog and `a.o` are present,
`b.o` is absent, so the failure is at the second analyzed file, after `a.o`
has been moved. -/
theorem relocation_catalog_first_witness :
    fsLookup stOkBuild.files "b.o" = none
    ∧ (fsLookup stOkBuild.files "a.o").isSome = true
    ∧ (cleanup_build_dir ["a.vhd", "b.vhd"] stOkBuild).1 =
        Except.error "could not move generated build artifact `\"b.o\"` to build dir"
    ∧ fsLookup (cleanup_build_dir ["a.vhd", "b.vhd"] stOkBuild).2.files
        "build/root/work-obj93.cf" = some (rewriteCatalog ("x".toList))
    ∧ fsLookup (cleanup_build_dir ["a.vhd", "b.vhd"] stOkBuild).2.files "work-obj93.cf" =
        none := by
  have h := relocation_catalog_first stOkBuild ("x".toList) ["a.vhd"] ["a"] [] "b.vhd" "b"
    rfl (List.Forall₂.cons rfl List.Forall₂.nil) rfl
    (by decide) (by decide) (by decide) (by decide) (by decide) (by decide)
    (by decide) (by decide) (by decide) (by decide)
  exact ⟨by decide, by decide, h.1, h.2.1, h.2.2⟩

/-! ### Claim C3: the relocator runs regardless of the analyze exit status -/

def tcAnalyzeFail : Toolchain := ⟨false, true, true⟩

/-- C3 counterexample: the analyze subprocess exits non-zero
(`tcAnalyzeFail.analyzeOk = false`), yet the object artifact `a.o` has been
moved into `build/root/` and the catalog has been rewritten there and deleted
from the working directory — refuting "no object artifact is moved and no
catalog file is rewritten or deleted". -/
theorem analyze_failure_still_relocates_cex :
    tcAnalyzeFail.analyzeOk = false
    ∧ (compile_vhd_files tcAnalyzeFail ["a.vhd"] stOkBuild).1 =
        Except.error "GHDL didn't compile successfully."
    ∧ fsLookup (compile_vhd_files tcAnalyzeFail ["a.vhd"] stOkBuild).2.files
        "build/root/a.o" = some []
    ∧ fsLookup (compile_vhd_files tcAnalyzeFail ["a.vhd"] stOkBuild).2.files
        "build/root/work-obj93.cf" = some ("x".toList)
    ∧ fsLookup (compile_vhd_files tcAnalyzeFail ["a.vhd"] stOkBuild).2.files
        "work-obj93.cf" = none := by
  refine ⟨rfl, rfl, by decide, by decide, by decide⟩

/-- C3 (amended): the Artifact Relocator is invoked after the analyze
subprocess is awaited regardless of its exit status — the resulting filesystem
state and trace are independent of the exit status — and on a non-zero exit the
whole stage still reports an error (either the relocation's or the compile
failure). -/
theorem analyze_relocates_regardless (a b e r : Bool) (files : List String) (st : St) :
    (compile_vhd_files ⟨a, e, r⟩ files st).2 = (compile_vhd_files ⟨b, e, r⟩ files st).2
    ∧ (a = false → ∃ msg, (compile_vhd_files ⟨a, e, r⟩ files st).1 = Except.error msg) := by
  simp only [compile_vhd_files]
  cases hcl : cleanup_build_dir files (stWait (stSpawn st "ghdl" ("-a" :: files) none) "ghdl") with
  | mk res st' =>
    cases res with
    | error msg =>
      refine ⟨rfl, fun _ => ⟨msg, rfl⟩⟩
    | ok u =>
      cases u
      refine ⟨?_, ?_⟩
      · cases a <;> cases b <;> rfl
      · intro ha
        subst ha
        exact ⟨"GHDL didn't compile successfully.", rfl⟩

/-- Witness for the amended C3 theorem at a concrete build state. -/
theorem analyze_relocates_regardless_witness :
    (compile_vhd_files ⟨false, true, true⟩ ["a.vhd"] stOkBuild).2 =
      (compile_vhd_files ⟨true, true, true⟩ ["a.vhd"] stOkBuild).2
    ∧ ∃ msg, (compile_vhd_files ⟨false, true, true⟩ ["a.vhd"] stOkBuild).1 =
        Except.error msg :=
  ⟨(analyze_relocates_regardless false true true true ["a.vhd"] stOkBuild).1,
    (analyze_relocates_regardless false true true true ["a.vhd"] stOkBuild).2 rfl⟩

/-! ### Claim C6: the viewer launch -/

/-- C6 evaluation: with a produced waveform name and the single supported
viewer, the viewer is spawned against `build/root/<vcd-name>` — but the
orchestrator then waits on the viewer process (the `Event.wait "gtkwave"`
entry), contradicting the claim (and the `Wave` command's own doc comment)
that the viewer runs as a detached process. -/
theorem wave_viewer_waits :
    launch_vcd_viewer (some "out.vcd") (some "gtkwave") ⟨[], []⟩ =
      (Except.ok (), ⟨[], [Event.spawn "gtkwave" ["build/root/out.vcd"] none,
        Event.wait "gtkwave"]⟩)
    ∧ Event.wait "gtkwave" ∈ (launch_vcd_viewer (some "out.vcd") (some "gtkwave") ⟨[], []⟩).2.trace := by
  refine ⟨rfl, by decide⟩

/-! ### Claim C7: `Run` with no entry file fails before elaborate/execute -/

/-- C7: for every target with a non-empty file list and no entry file, the
`Run` pipeline always fails, its final state is exactly the analyze stage's
state (so no elaborate or execute subprocess is ever spawned), and whenever the
analyze stage itself succeeds the reported error is the corrective
`execute`-not-set message from the Elaborate stage. -/
theorem run_without_entry_fails_before_elaborate (tc : Toolchain) (files : List String)
    (hne : files ≠ []) (cmdVcd manifestVcd : Option String) (st : St) :
    (∃ e, (runCommandRun tc files none cmdVcd manifestVcd st).1 = Except.error e)
    ∧ (runCommandRun tc files none cmdVcd manifestVcd st).2 = (compile_vhd_files tc files st).2
    ∧ ((compile_vhd_files tc files st).1 = Except.ok () →
        (runCommandRun tc files none cmdVcd manifestVcd st).1 =
          Except.error "must have a file chosen to execute in order to elaborate. Please set `execute = \"<YOUR_FILE>\" in gb.toml") := by
  unfold runCommandRun
  cases hc : compile_vhd_files tc files st with
  | mk res st' =>
    cases res with
    | error e =>
      exact ⟨⟨e, rfl⟩, rfl, fun hok => absurd hok (by simp)⟩
    | ok u =>
      cases u
      exact ⟨⟨_, rfl⟩, rfl, fun _ => rfl⟩

/-- Witness for C7: a 1-file target with entry unset, analyze succeeding. -/
theorem run_without_entry_witness :
    (["a.vhd"] : List String) ≠ []
    ∧ (runCommandRun ⟨true, true, true⟩ ["a.vhd"] none none none stOkBuild).1 =
        Except.error "must have a file chosen to execute in order to elaborate. Please set `execute = \"<YOUR_FILE>\" in gb.toml" :=
  ⟨by decide,
    (run_without_entry_fails_before_elaborate ⟨true, true, true⟩ ["a.vhd"] (by decide)
      none none stOkBuild).2.2 rfl⟩

/-! ### Claim C10: command-line `--vcd` takes precedence over the manifest -/

/-- The viewer launch never removes trace entries: whatever the vcd and viewer
configuration, events already in the trace are still there afterwards. -/
theorem launch_vcd_viewer_trace_mono (vcd default_vcd_viewer : Option String) (st : St)
    (e : Event) (h : e ∈ st.trace) :
    e ∈ (launch_vcd_viewer vcd default_vcd_viewer st).2.trace := by
  cases vcd with
  | none => exact h
  | some v =>
    cases default_vcd_viewer with
    | none => exact h
    | some viewer =>
      by_cases hv : viewer = "gtkwave"
      · simp [launch_vcd_viewer, hv, stSpawn, stWait, List.mem_append, h]
      · simp [launch_vcd_viewer, hv, h]

/-- C10: when the `Run` or `Wave` pipeline reaches the execute stage, the
`ghdl -r` invocation receives the waveform value `Option.or cmdVcd manifestVcd`
— the command-line value whenever one is given, and the manifest's `vcd-name`
only when none is. -/
theorem vcd_cli_overrides_manifest (tc : Toolchain) (files : List String) (f stem : String)
    (cmdVcd manifestVcd viewer : Option String) (st : St)
    (h1 : (compile_vhd_files tc files st).1 = Except.ok ())
    (h2 : tc.elaborateOk = true)
    (h3 : pathFileStem f = some stem) :
    Event.spawn "ghdl" ("-r" :: stem :: (match Option.or cmdVcd manifestVcd with
        | some v => ["--vcd=" ++ v]
        | none => [])) (some "build/root/")
      ∈ (runCommandRun tc files (some f) cmdVcd manifestVcd st).2.trace
    ∧ Event.spawn "ghdl" ("-r" :: stem :: (match Option.or cmdVcd manifestVcd with
        | some v => ["--vcd=" ++ v]
        | none => [])) (some "build/root/")
      ∈ (runCommandWave tc files (some f) cmdVcd manifestVcd viewer st).2.trace
    ∧ (∀ v, cmdVcd = some v → Option.or cmdVcd manifestVcd = some v)
    ∧ (cmdVcd = none → Option.or cmdVcd manifestVcd = manifestVcd) := by
  refine ⟨?_, ?_, ?_, ?_⟩
  · simp only [runCommandRun]
    cases hc : compile_vhd_files tc files st with
    | mk res st1 =>
      rw [hc] at h1
      simp only at h1
      cases res with
      | error e => exact absurd h1 (by simp)
      | ok u =>
        cases u
        simp only [elaborate_vhdl_solution, h3, h2, if_true]
        simp only [execute_vhdl_solution, h3]
        cases hr : tc.runOk <;>
          simp [hr, stSpawn, stWait, List.mem_append]
  · simp only [runCommandWave]
    cases hc : compile_vhd_files tc files st with
    | mk res st1 =>
      rw [hc] at h1
      simp only at h1
      cases res with
      | error e => exact absurd h1 (by simp)
      | ok u =>
        cases u
        simp only [elaborate_vhdl_solution, h3, h2, if_true]
        simp only [execute_vhdl_solution, h3]
        cases hr : tc.runOk
        · simp [hr, stSpawn, stWait, List.mem_append]
        · exact launch_vcd_viewer_trace_mono _ _ _ _
            (by simp [stSpawn, stWait, List.mem_append])
  · intro v hv
    subst hv
    rfl
  · intro hv
    subst hv
    cases manifestVcd <;> rfl

def tcAll : Toolchain := ⟨true, true, true⟩

/-- Witness for C10: command-line `cli.vcd` wins over manifest `man.vcd` in
both the `Run` and the `Wave` pipelines. -/
theorem vcd_cli_overrides_manifest_witness :
    (compile_vhd_files tcAll ["a.vhd"] stOkBuild).1 = Except.ok ()
    ∧ Event.spawn "ghdl" ["-r", "top", "--vcd=cli.vcd"] (some "build/root/")
        ∈ (runCommandRun tcAll ["a.vhd"] (some "top.vhd") (some "cli.vcd") (some "man.vcd")
            stOkBuild).2.trace
    ∧ Event.spawn "ghdl" ["-r", "top", "--vcd=cli.vcd"] (some "build/root/")
        ∈ (runCommandWave tcAll ["a.vhd"] (some "top.vhd") (some "cli.vcd") (some "man.vcd")
            (some "gtkwave") stOkBuild).2.trace :=
  ⟨rfl,
    (vcd_cli_overrides_manifest tcAll ["a.vhd"] "top.vhd" "top" (some "cli.vcd")
      (some "man.vcd") (some "gtkwave") stOkBuild rfl rfl rfl).1,
    (vcd_cli_overrides_manifest tcAll ["a.vhd"] "top.vhd" "top" (some "cli.vcd")
      (some "man.vcd") (some "gtkwave") stOkBuild rfl rfl rfl).2.1⟩

/-! ### Dependency resolver model (`src/tree_sitter.rs`)

Paths are modelled as a parent directory plus a file name (all the source does
with them is `with_file_name`/`with_extension`, which replace the file-name
part).  The filesystem and the tree-sitter parser are the resolver's oracles:
which files exist, and for each path either its declared component names or
`none` for an unreadable/unparseable file (`get_components_of` returning
`Err`).  The source's unbounded recursion is modelled with explicit fuel;
sufficiency of the fuel chosen in `generate_sources_for` is proved below
(`generate_sources_inner_fuel_ge`). -/

structure VPath where
  dir : List String
  file : String
deriving DecidableEq

/-- `PathBuf::with_file_name`. -/
def VPath.withFileName (p : VPath) (name : String) : VPath := ⟨p.dir, name⟩

/-- `PathBuf::with_extension` on a path. -/
def VPath.withExtension (p : VPath) (e : String) : VPath :=
  ⟨p.dir, stringWithExtension p.file e⟩

/-- `path.with_file_name(comp).with_extension("vhd")`. -/
def candPath (p : VPath) (comp : String) : VPath :=
  (p.withFileName comp).withExtension "vhd"

/-- Oracle for dependency resolution: the files existing on disk and the parse
results. -/
structure FSModel where
  files : List VPath
  parse : VPath → Option (List String)

def FSModel.existsOn (fs : FSModel) (q : VPath) : Bool := decide (q ∈ fs.files)

/-- Candidate sibling paths of `p` for component list `comps`, filtered by
existence on disk (the `.map(...)` then `.filter(|path| path.exists())`). -/
def depsOf (fs : FSModel) (p : VPath) (comps : List String) : List VPath :=
  (comps.map (candPath p)).filter (fun q => fs.existsOn q)

abbrev DepMap := List (VPath × List VPath)

/-- Association-list lookup (the `HashMap` interface the source uses). -/
def alookup {α β : Type} [DecidableEq α] : List (α × β) → α → Option β
  | [], _ => none
  | (k, v) :: m, p => if k = p then some v else alookup m p

/-- `generate_sources_inner`: skip visited paths, treat parse failures as zero
dependencies, record the direct dependency list, recurse into each dependency. -/
def generate_sources_inner (fs : FSModel) : Nat → VPath → DepMap → DepMap
  | 0, _, m => m
  | fuel+1, p, m =>
    if (alookup m p).isSome then m
    else
      match fs.parse p with
      | none => m
      | some comps =>
        let paths := depsOf fs p comps
        paths.foldl (fun acc q => generate_sources_inner fs fuel q acc) ((p, paths) :: m)

/-- Flatten the visited map: the union of all keys and all recorded dependency
targets (`set.insert(k); set.extend(v)`). -/
def flattenDeps : DepMap → Finset VPath
  | [] => ∅
  | (k, v) :: m => insert k (v.toFinset ∪ flattenDeps m)

/-- `generate_sources_for`. -/
def generate_sources_for (fs : FSModel) (p : VPath) : Finset VPath :=
  flattenDeps (generate_sources_inner fs (fs.files.length + 2) p [])

/-- Direct or transitive dependency through parse results, following only
candidate files that exist on disk. -/
inductive DependsOn (fs : FSModel) : VPath → VPath → Prop
  | direct {p : VPath} {comps : List String} {c : VPath} :
      fs.parse p = some comps → c ∈ depsOf fs p comps → DependsOn fs p c
  | trans {p q c : VPath} : DependsOn fs p q → DependsOn fs q c → DependsOn fs p c

/-! #### Association list lemmas -/

theorem alookup_isSome_iff {α β : Type} [DecidableEq α] (m : List (α × β)) (p : α) :
    (alookup m p).isSome ↔ p ∈ m.map Prod.fst := by
  induction m with
  | nil => simp [alookup]
  | cons kv rest ih =>
    obtain ⟨k, v⟩ := kv
    simp only [List.map_cons, List.mem_cons]
    by_cases hk : k = p
    · subst hk
      simp [alookup]
    · have he : alookup ((k, v) :: rest) p = alookup rest p := by simp [alookup, hk]
      rw [he, ih]
      constructor
      · exact Or.inr
      · rintro (h | h)
        · exact absurd h.symm hk
        · exact h

theorem alookup_mem {α β : Type} [DecidableEq α] (m : List (α × β)) (p : α) (v : β)
    (h : alookup m p = some v) : (p, v) ∈ m := by
  induction m with
  | nil => exact absurd h (by simp [alookup])
  | cons kv rest ih =>
    obtain ⟨k, w⟩ := kv
    by_cases hk : k = p
    · subst hk
      have hw : alookup ((k, w) :: rest) k = some w := by simp [alookup]
      rw [h] at hw
      injection hw with hw
      subst hw
      exact List.mem_cons_self _ _
    · simp only [alookup, hk, if_false] at h
      exact List.mem_cons_of_mem _ (ih h)

theorem alookup_append {α β : Type} [DecidableEq α] (l m : List (α × β)) (p : α) :
    alookup (l ++ m) p = (alookup l p).or (alookup m p) := by
  induction l with
  | nil => simp [alookup]
  | cons kv rest ih =>
    obtain ⟨k, v⟩ := kv
    by_cases hk : k = p
    · simp [alookup, hk]
    · simp [alookup, hk, ih]

theorem alookup_mono {α β : Type} [DecidableEq α] (m m' : List (α × β)) (p : α) (v : β)
    (hsuf : m <:+ m') (hnd : (m'.map Prod.fst).Nodup) (h : alookup m p = some v) :
    alookup m' p = some v := by
  obtain ⟨pre, rfl⟩ := hsuf
  rw [alookup_append]
  have hmem : p ∈ m.map Prod.fst := (alookup_isSome_iff m p).mp (by simp [h])
  have hnotpre : p ∉ pre.map Prod.fst := by
    rw [List.map_append] at hnd
    exact fun hp => (List.disjoint_of_nodup_append hnd) hp hmem
  have : alookup pre p = none := by
    cases hl : alookup pre p with
    | none => rfl
    | some w => exact absurd ((alookup_isSome_iff pre p).mp (by simp [hl])) hnotpre
  rw [this, h, Option.none_or]

theorem alookup_isSome_mono {α β : Type} [DecidableEq α] (m m' : List (α × β)) (p : α)
    (hsuf : m <:+ m') (hnd : (m'.map Prod.fst).Nodup) (h : (alookup m p).isSome) :
    (alookup m' p).isSome := by
  obtain ⟨v, hv⟩ := Option.isSome_iff_exists.mp h
  simp [alookup_mono m m' p v hsuf hnd hv]

theorem mem_flattenDeps (m : DepMap) (x : VPath) :
    x ∈ flattenDeps m ↔ ∃ kv ∈ m, x = kv.1 ∨ x ∈ kv.2 := by
  induction m with
  | nil => simp [flattenDeps]
  | cons kv rest ih =>
    obtain ⟨k, v⟩ := kv
    simp only [flattenDeps, Finset.mem_insert, Finset.mem_union, List.mem_toFinset, ih]
    constructor
    · rintro (h | h | ⟨kv', hkv', h⟩)
      · exact ⟨(k, v), List.mem_cons_self _ _, Or.inl h⟩
      · exact ⟨(k, v), List.mem_cons_self _ _, Or.inr h⟩
      · exact ⟨kv', List.mem_cons_of_mem _ hkv', h⟩
    · rintro ⟨kv', hkv', h⟩
      rcases List.mem_cons.mp hkv' with heq | hmem
      · subst heq
        rcases h with h | h
        · exact Or.inl h
        · exact Or.inr (Or.inl h)
      · exact Or.inr (Or.inr ⟨kv', hmem, h⟩)

/-! #### Structural lemmas about `generate_sources_inner` -/

theorem foldl_suffix {α : Type} (g : DepMap → α → DepMap) (hg : ∀ acc q, acc <:+ g acc q) :
    ∀ (l : List α) (m : DepMap), m <:+ List.foldl g m l := by
  intro l
  induction l with
  | nil => intro m; exact List.suffix_refl m
  | cons q qs ih =>
    intro m
    exact List.IsSuffix.trans (hg m q) (ih (g m q))

theorem generate_sources_inner_suffix (fs : FSModel) :
    ∀ (fuel : Nat) (p : VPath) (m : DepMap), m <:+ generate_sources_inner fs fuel p m := by
  intro fuel
  induction fuel with
  | zero => intro p m; exact List.suffix_refl m
  | succ fuel ih =>
    intro p m
    simp only [generate_sources_inner]
    by_cases hv : (alookup m p).isSome
    · simp [hv]
    · simp only [hv, Bool.false_eq_true, if_false]
      cases hp : fs.parse p with
      | none => exact List.suffix_refl m
      | some comps =>
        refine List.IsSuffix.trans (List.suffix_cons (p, depsOf fs p comps) m)
          (foldl_suffix _ (fun acc q => ih q acc) _ _)

theorem generate_sources_inner_keys_nodup (fs : FSModel) :
    ∀ (fuel : Nat) (p : VPath) (m : DepMap),
      (m.map Prod.fst).Nodup → ((generate_sources_inner fs fuel p m).map Prod.fst).Nodup := by
  intro fuel
  induction fuel with
  | zero => intro p m h; exact h
  | succ fuel ih =>
    intro p m hnd
    simp only [generate_sources_inner]
    by_cases hv : (alookup m p).isSome
    · simp [hv, hnd]
    · simp only [hv, Bool.false_eq_true, if_false]
      cases hp : fs.parse p with
      | none => exact hnd
      | some comps =>
        have hp0 : p ∉ m.map Prod.fst := fun hmem =>
          hv ((alookup_isSome_iff m p).mpr hmem)
        have hnd0 : (((p, depsOf fs p comps) :: m).map Prod.fst).Nodup := by
          rw [List.map_cons]
          exact List.nodup_cons.mpr ⟨hp0, hnd⟩
        have : ∀ (l : List VPath) (m0 : DepMap), (m0.map Prod.fst).Nodup →
            ((List.foldl (fun acc q => generate_sources_inner fs fuel q acc) m0 l).map
              Prod.fst).Nodup := by
          intro l
          induction l with
          | nil => intro m0 h; exact h
          | cons q qs ihq => intro m0 h; exact ihq _ (ih q m0 h)
        exact this _ _ hnd0

theorem foldl_inner_nodup (fs : FSModel) (fuel : Nat) :
    ∀ (l : List VPath) (m : DepMap), (m.map Prod.fst).Nodup →
      ((List.foldl (fun acc q => generate_sources_inner fs fuel q acc) m l).map Prod.fst).Nodup := by
  intro l
  induction l with
  | nil => intro m h; exact h
  | cons q qs ih =>
    intro m h
    exact ih _ (generate_sources_inner_keys_nodup fs fuel q m h)

/-- Shape of every entry the traversal records: the key parsed successfully and
the value is exactly its existence-filtered candidate list. -/
def goodEntry (fs : FSModel) (e : VPath × List VPath) : Prop :=
  ∃ comps, fs.parse e.1 = some comps ∧ e.2 = depsOf fs e.1 comps

theorem generate_sources_inner_entries (fs : FSModel) :
    ∀ (fuel : Nat) (p : VPath) (m : DepMap) (e : VPath × List VPath),
      e ∈ generate_sources_inner fs fuel p m →
      e ∈ m ∨ (goodEntry fs e ∧ (e.1 = p ∨ fs.existsOn e.1 = true)) := by
  intro fuel
  induction fuel with
  | zero => intro p m e h; exact Or.inl h
  | succ fuel ih =>
    intro p m e h
    by_cases hv : (alookup m p).isSome
    · rw [show generate_sources_inner fs (fuel+1) p m = m by
        simp [generate_sources_inner, hv]] at h
      exact Or.inl h
    · cases hp : fs.parse p with
      | none =>
        rw [show generate_sources_inner fs (fuel+1) p m = m by
          simp [generate_sources_inner, hv, hp]] at h
        exact Or.inl h
      | some comps =>
        rw [show generate_sources_inner fs (fuel+1) p m =
            List.foldl (fun acc q => generate_sources_inner fs fuel q acc)
              ((p, depsOf fs p comps) :: m) (depsOf fs p comps) by
          simp [generate_sources_inner, hv, hp]] at h
        have hfold : ∀ (l : List VPath), (∀ q ∈ l, fs.existsOn q = true) →
            ∀ m0, e ∈ List.foldl (fun acc q => generate_sources_inner fs fuel q acc) m0 l →
              e ∈ m0 ∨ (goodEntry fs e ∧ fs.existsOn e.1 = true) := by
          intro l
          induction l with
          | nil => intro _ m0 h0; exact Or.inl h0
          | cons q qs ihq =>
            intro hl m0 h0
            rcases ihq (fun r hr => hl r (List.mem_cons_of_mem _ hr)) _ h0 with h1 | h1
            · rcases ih q m0 e h1 with h2 | ⟨hg, h3 | h3⟩
              · exact Or.inl h2
              · exact Or.inr ⟨hg, h3 ▸ hl q (List.mem_cons_self _ _)⟩
              · exact Or.inr ⟨hg, h3⟩
            · exact Or.inr h1
        have hex : ∀ q ∈ depsOf fs p comps, fs.existsOn q = true := by
          intro q hq
          exact (List.mem_filter.mp hq).2
        rcases hfold _ hex _ h with h1 | h1
        · rcases List.mem_cons.mp h1 with he | hm
          · subst he
            exact Or.inr ⟨⟨comps, hp, rfl⟩, Or.inl rfl⟩
          · exact Or.inl hm
        · exact Or.inr ⟨h1.1, Or.inr h1.2⟩

/-- The fold step of the main invariant, abstracted over the induction
hypothesis at the current fuel. -/
theorem fold_main_aux (fs : FSModel) (fuel : Nat)
    (IH : ∀ (p : VPath) (m : DepMap), (m.map Prod.fst).Nodup →
      ((insert p fs.files.toFinset) \ (m.map Prod.fst).toFinset).card < fuel →
      ((alookup (generate_sources_inner fs fuel p m) p).isSome ∨ fs.parse p = none)
      ∧ (∀ k v, alookup (generate_sources_inner fs fuel p m) k = some v →
          alookup m k = some v ∨
            ∀ c ∈ v, ((alookup (generate_sources_inner fs fuel p m) c).isSome ∨
              fs.parse c = none))) :
    ∀ (l : List VPath) (m : DepMap),
      (m.map Prod.fst).Nodup →
      (∀ q ∈ l, q ∈ fs.files) →
      (fs.files.toFinset \ (m.map Prod.fst).toFinset).card < fuel →
      (∀ q ∈ l,
        ((alookup (List.foldl (fun acc q => generate_sources_inner fs fuel q acc) m l) q).isSome
          ∨ fs.parse q = none))
      ∧ (∀ k v,
          alookup (List.foldl (fun acc q => generate_sources_inner fs fuel q acc) m l) k
            = some v →
          alookup m k = some v ∨
            ∀ c ∈ v,
              ((alookup (List.foldl (fun acc q => generate_sources_inner fs fuel q acc) m l)
                  c).isSome
                ∨ fs.parse c = none)) := by
  intro l
  induction l with
  | nil =>
    intro m hnd hl hcard
    exact ⟨fun q hq => absurd hq (List.not_mem_nil q), fun k v hk => Or.inl hk⟩
  | cons q qs ihl =>
    intro m hnd hl hcard
    simp only [List.foldl_cons]
    have hnd1 : ((generate_sources_inner fs fuel q m).map Prod.fst).Nodup :=
      generate_sources_inner_keys_nodup fs fuel q m hnd
    have hsuf1 : m <:+ generate_sources_inner fs fuel q m :=
      generate_sources_inner_suffix fs fuel q m
    have hkeys1 : (m.map Prod.fst).toFinset ⊆
        ((generate_sources_inner fs fuel q m).map Prod.fst).toFinset := by
      obtain ⟨pre, hpre⟩ := hsuf1
      intro x hx
      rw [← hpre, List.map_append, List.toFinset_append]
      exact Finset.mem_union_right _ hx
    have hcard1 : (fs.files.toFinset \
        ((generate_sources_inner fs fuel q m).map Prod.fst).toFinset).card < fuel :=
      lt_of_le_of_lt
        (Finset.card_le_card (Finset.sdiff_subset_sdiff (Finset.Subset.refl _) hkeys1)) hcard
    have hq_cond : ((insert q fs.files.toFinset) \ (m.map Prod.fst).toFinset).card < fuel := by
      rw [Finset.insert_eq_self.mpr (List.mem_toFinset.mpr (hl q (List.mem_cons_self _ _)))]
      exact hcard
    have hQ := IH q m hnd hq_cond
    have hrest := ihl (generate_sources_inner fs fuel q m) hnd1
      (fun r hr => hl r (List.mem_cons_of_mem _ hr)) hcard1
    have hsufF : generate_sources_inner fs fuel q m <:+
        List.foldl (fun acc r => generate_sources_inner fs fuel r acc)
          (generate_sources_inner fs fuel q m) qs :=
      foldl_suffix _ (fun acc r => generate_sources_inner_suffix fs fuel r acc) qs _
    have hndF : ((List.foldl (fun acc r => generate_sources_inner fs fuel r acc)
        (generate_sources_inner fs fuel q m) qs).map Prod.fst).Nodup :=
      foldl_inner_nodup fs fuel qs _ hnd1
    constructor
    · intro r hr
      rcases List.mem_cons.mp hr with rfl | hmem
      · rcases hQ.1 with hs | hn
        · exact Or.inl (alookup_isSome_mono _ _ r hsufF hndF hs)
        · exact Or.inr hn
      · exact hrest.1 r hmem
    · intro k v hk
      rcases hrest.2 k v hk with h1 | h1
      · rcases hQ.2 k v h1 with h2 | h2
        · exact Or.inl h2
        · refine Or.inr fun c hc => ?_
          rcases h2 c hc with hs | hn
          · exact Or.inl (alookup_isSome_mono _ _ c hsufF hndF hs)
          · exact Or.inr hn
      · exact Or.inr h1

/-- Main invariant: with sufficient fuel the traversal records `p` (unless it
fails to parse), and every recorded entry's dependencies are themselves
recorded or fail to parse. -/
theorem generate_sources_inner_main (fs : FSModel) :
    ∀ (fuel : Nat) (p : VPath) (m : DepMap),
      (m.map Prod.fst).Nodup →
      ((insert p fs.files.toFinset) \ (m.map Prod.fst).toFinset).card < fuel →
      ((alookup (generate_sources_inner fs fuel p m) p).isSome ∨ fs.parse p = none)
      ∧ (∀ k v, alookup (generate_sources_inner fs fuel p m) k = some v →
          alookup m k = some v ∨
            ∀ c ∈ v, ((alookup (generate_sources_inner fs fuel p m) c).isSome ∨
              fs.parse c = none)) := by
  intro fuel
  induction fuel with
  | zero => intro p m hnd hcard; exact absurd hcard (Nat.not_lt_zero _)
  | succ fuel ih =>
    intro p m hnd hcard
    by_cases hv : (alookup m p).isSome
    · rw [show generate_sources_inner fs (fuel+1) p m = m by
        simp [generate_sources_inner, hv]]
      exact ⟨Or.inl hv, fun k v hk => Or.inl hk⟩
    · cases hp : fs.parse p with
      | none =>
        rw [show generate_sources_inner fs (fuel+1) p m = m by
          simp [generate_sources_inner, hv, hp]]
        exact ⟨Or.inr rfl, fun k v hk => Or.inl hk⟩
      | some comps =>
        rw [show generate_sources_inner fs (fuel+1) p m =
            List.foldl (fun acc q => generate_sources_inner fs fuel q acc)
              ((p, depsOf fs p comps) :: m) (depsOf fs p comps) by
          simp [generate_sources_inner, hv, hp]]
        have hp0 : p ∉ m.map Prod.fst := fun hmem => hv ((alookup_isSome_iff m p).mpr hmem)
        have hnd0 : ((((p, depsOf fs p comps)) :: m).map Prod.fst).Nodup := by
          rw [List.map_cons]
          exact List.nodup_cons.mpr ⟨hp0, hnd⟩
        have hpS : p ∈ (insert p fs.files.toFinset) \ (m.map Prod.fst).toFinset :=
          Finset.mem_sdiff.mpr ⟨Finset.mem_insert_self _ _,
            fun hc => hp0 (List.mem_toFinset.mp hc)⟩
        have hsub : fs.files.toFinset \
            ((((p, depsOf fs p comps)) :: m).map Prod.fst).toFinset ⊆
            ((insert p fs.files.toFinset) \ (m.map Prod.fst).toFinset).erase p := by
          intro x hx
          rw [Finset.mem_sdiff] at hx
          have hx2 := hx.2
          rw [List.map_cons, List.toFinset_cons] at hx2
          have hxne : x ≠ p := fun he => hx2 (he ▸ Finset.mem_insert_self _ _)
          have hxm : x ∉ (m.map Prod.fst).toFinset := fun hc => hx2 (Finset.mem_insert_of_mem hc)
          exact Finset.mem_erase.mpr ⟨hxne,
            Finset.mem_sdiff.mpr ⟨Finset.mem_insert_of_mem hx.1, hxm⟩⟩
        have hcard0 : (fs.files.toFinset \
            ((((p, depsOf fs p comps)) :: m).map Prod.fst).toFinset).card < fuel := by
          have h1 := Finset.card_le_card hsub
          have h2 := Finset.card_erase_of_mem hpS
          have h3 : 1 ≤ ((insert p fs.files.toFinset) \ (m.map Prod.fst).toFinset).card :=
            Finset.card_pos.mpr ⟨p, hpS⟩
          omega
        have hl0 : ∀ q ∈ depsOf fs p comps, q ∈ fs.files := by
          intro q hq
          exact of_decide_eq_true (List.mem_filter.mp hq).2
        have hF := fold_main_aux fs fuel ih (depsOf fs p comps)
          ((p, depsOf fs p comps) :: m) hnd0 hl0 hcard0
        have hsufF : ((p, depsOf fs p comps) :: m) <:+
            List.foldl (fun acc q => generate_sources_inner fs fuel q acc)
              ((p, depsOf fs p comps) :: m) (depsOf fs p comps) :=
          foldl_suffix _ (fun acc r => generate_sources_inner_suffix fs fuel r acc) _ _
        have hndF := foldl_inner_nodup fs fuel (depsOf fs p comps)
          ((p, depsOf fs p comps) :: m) hnd0
        constructor
        · left
          have hm0 : alookup ((p, depsOf fs p comps) :: m) p = some (depsOf fs p comps) := by
            simp [alookup]
          have := alookup_mono _ _ p _ hsufF hndF hm0
          simp [this]
        · intro k v hk
          rcases hF.2 k v hk with h1 | h1
          · by_cases hkp : p = k
            · have hvv : some (depsOf fs p comps) = some v := by
                rw [← h1]
                simp [alookup, hkp]
              injection hvv with hvv
              refine Or.inr fun c hc => ?_
              exact hF.1 c (hvv ▸ hc)
            · left
              have he : alookup ((p, depsOf fs p comps) :: m) k = alookup m k := by
                simp [alookup, hkp]
              rw [he] at h1
              exact h1
          · exact Or.inr h1

/-! #### Fuel irrelevance: the recursion stabilises once the fuel covers the
filesystem, which is the shallow-embedding rendering of termination of the
source's unbounded recursion. -/

theorem fold_fuel_aux (fs : FSModel) (fuel : Nat)
    (IH : ∀ (p : VPath) (m : DepMap), (m.map Prod.fst).Nodup →
      ((insert p fs.files.toFinset) \ (m.map Prod.fst).toFinset).card < fuel →
      generate_sources_inner fs (fuel+1) p m = generate_sources_inner fs fuel p m) :
    ∀ (l : List VPath) (m : DepMap), (m.map Prod.fst).Nodup →
      (∀ q ∈ l, q ∈ fs.files) →
      (fs.files.toFinset \ (m.map Prod.fst).toFinset).card < fuel →
      List.foldl (fun acc q => generate_sources_inner fs (fuel+1) q acc) m l =
        List.foldl (fun acc q => generate_sources_inner fs fuel q acc) m l := by
  intro l
  induction l with
  | nil => intro m _ _ _; rfl
  | cons q qs ihl =>
    intro m hnd hl hcard
    simp only [List.foldl_cons]
    have hq_cond : ((insert q fs.files.toFinset) \ (m.map Prod.fst).toFinset).card < fuel := by
      rw [Finset.insert_eq_self.mpr (List.mem_toFinset.mpr (hl q (List.mem_cons_self _ _)))]
      exact hcard
    rw [IH q m hnd hq_cond]
    have hnd1 : ((generate_sources_inner fs fuel q m).map Prod.fst).Nodup :=
      generate_sources_inner_keys_nodup fs fuel q m hnd
    have hkeys1 : (m.map Prod.fst).toFinset ⊆
        ((generate_sources_inner fs fuel q m).map Prod.fst).toFinset := by
      obtain ⟨pre, hpre⟩ := generate_sources_inner_suffix fs fuel q m
      intro x hx
      rw [← hpre, List.map_append, List.toFinset_append]
      exact Finset.mem_union_right _ hx
    have hcard1 : (fs.files.toFinset \
        ((generate_sources_inner fs fuel q m).map Prod.fst).toFinset).card < fuel :=
      lt_of_le_of_lt
        (Finset.card_le_card (Finset.sdiff_subset_sdiff (Finset.Subset.refl _) hkeys1)) hcard
    exact ihl _ hnd1 (fun r hr => hl r (List.mem_cons_of_mem _ hr)) hcard1

theorem generate_sources_inner_fuel_succ (fs : FSModel) :
    ∀ (fuel : Nat) (p : VPath) (m : DepMap), (m.map Prod.fst).Nodup →
      ((insert p fs.files.toFinset) \ (m.map Prod.fst).toFinset).card < fuel →
      generate_sources_inner fs (fuel+1) p m = generate_sources_inner fs fuel p m := by
  intro fuel
  induction fuel with
  | zero => intro p m _ h; exact absurd h (Nat.not_lt_zero _)
  | succ fuel ih =>
    intro p m hnd hcard
    by_cases hv : (alookup m p).isSome
    · rw [show generate_sources_inner fs (fuel+1+1) p m = m by
          simp [generate_sources_inner, hv],
        show generate_sources_inner fs (fuel+1) p m = m by
          simp [generate_sources_inner, hv]]
    · cases hp : fs.parse p with
      | none =>
        rw [show generate_sources_inner fs (fuel+1+1) p m = m by
            simp [generate_sources_inner, hv, hp],
          show generate_sources_inner fs (fuel+1) p m = m by
            simp [generate_sources_inner, hv, hp]]
      | some comps =>
        rw [show generate_sources_inner fs (fuel+1+1) p m =
            List.foldl (fun acc q => generate_sources_inner fs (fuel+1) q acc)
              ((p, depsOf fs p comps) :: m) (depsOf fs p comps) by
          simp [generate_sources_inner, hv, hp]]
        rw [show generate_sources_inner fs (fuel+1) p m =
            List.foldl (fun acc q => generate_sources_inner fs fuel q acc)
              ((p, depsOf fs p comps) :: m) (depsOf fs p comps) by
          simp [generate_sources_inner, hv, hp]]
        have hp0 : p ∉ m.map Prod.fst := fun hmem => hv ((alookup_isSome_iff m p).mpr hmem)
        have hnd0 : ((((p, depsOf fs p comps)) :: m).map Prod.fst).Nodup := by
          rw [List.map_cons]
          exact List.nodup_cons.mpr ⟨hp0, hnd⟩
        have hpS : p ∈ (insert p fs.files.toFinset) \ (m.map Prod.fst).toFinset :=
          Finset.mem_sdiff.mpr ⟨Finset.mem_insert_self _ _,
            fun hc => hp0 (List.mem_toFinset.mp hc)⟩
        have hsub : fs.files.toFinset \
            ((((p, depsOf fs p comps)) :: m).map Prod.fst).toFinset ⊆
            ((insert p fs.files.toFinset) \ (m.map Prod.fst).toFinset).erase p := by
          intro x hx
          rw [Finset.mem_sdiff] at hx
          have hx2 := hx.2
          rw [List.map_cons, List.toFinset_cons] at hx2
          have hxne : x ≠ p := fun he => hx2 (he ▸ Finset.mem_insert_self _ _)
          have hxm : x ∉ (m.map Prod.fst).toFinset := fun hc => hx2 (Finset.mem_insert_of_mem hc)
          exact Finset.mem_erase.mpr ⟨hxne,
            Finset.mem_sdiff.mpr ⟨Finset.mem_insert_of_mem hx.1, hxm⟩⟩
        have hcard0 : (fs.files.toFinset \
            ((((p, depsOf fs p comps)) :: m).map Prod.fst).toFinset).card < fuel := by
          have h1 := Finset.card_le_card hsub
          have h2 := Finset.card_erase_of_mem hpS
          have h3 : 1 ≤ ((insert p fs.files.toFinset) \ (m.map Prod.fst).toFinset).card :=
            Finset.card_pos.mpr ⟨p, hpS⟩
          omega
        have hl0 : ∀ q ∈ depsOf fs p comps, q ∈ fs.files := by
          intro q hq
          exact of_decide_eq_true (List.mem_filter.mp hq).2
        exact fold_fuel_aux fs fuel ih (depsOf fs p comps)
          ((p, depsOf fs p comps) :: m) hnd0 hl0 hcard0

theorem generate_sources_inner_fuel_ge (fs : FSModel) (p : VPath) :
    ∀ (g : Nat), fs.files.length + 2 ≤ g →
      generate_sources_inner fs g p [] =
        generate_sources_inner fs (fs.files.length + 2) p [] := by
  have hcard : ∀ (g : Nat), fs.files.length + 2 ≤ g →
      ((insert p fs.files.toFinset) \ (([] : DepMap).map Prod.fst).toFinset).card < g := by
    intro g hg
    simp only [List.map_nil, List.toFinset_nil, Finset.sdiff_empty]
    have h1 := Finset.card_insert_le p fs.files.toFinset
    have h2 := List.toFinset_card_le fs.files
    omega
  intro g hg
  induction g, hg using Nat.le_induction with
  | base => rfl
  | succ g hg ihg =>
    rw [generate_sources_inner_fuel_succ fs g p [] (by simp) (hcard g hg)]
    exact ihg

theorem DependsOn_parses (fs : FSModel) {p c : VPath} (h : DependsOn fs p c) :
    ∃ comps, fs.parse p = some comps := by
  induction h with
  | direct hp _ => exact ⟨_, hp⟩
  | trans h1 h2 ih1 ih2 => exact ih1

/-- C4: for every reference graph, acyclic or cyclic, `generate_sources_for`
terminates (the fueled recursion stabilises for every sufficient fuel) and
returns a finite set (membership is exactly-once by the `Finset` codomain)
containing each of the root's direct and transitive existing dependencies,
while every member other than the root exists on disk (missing referenced
component files are excluded without an error). -/
theorem resolve_complete_and_sound (fs : FSModel) (root : VPath) :
    (∀ c, DependsOn fs root c → c ∈ generate_sources_for fs root)
    ∧ (∀ x ∈ generate_sources_for fs root, x = root ∨ fs.existsOn x = true)
    ∧ (∀ g, fs.files.length + 2 ≤ g →
        flattenDeps (generate_sources_inner fs g root []) = generate_sources_for fs root) := by
  have hcard : ((insert root fs.files.toFinset) \ (([] : DepMap).map Prod.fst).toFinset).card <
      fs.files.length + 2 := by
    simp only [List.map_nil, List.toFinset_nil, Finset.sdiff_empty]
    have h1 := Finset.card_insert_le root fs.files.toFinset
    have h2 := List.toFinset_card_le fs.files
    omega
  have hmain := generate_sources_inner_main fs (fs.files.length + 2) root [] (by simp) hcard
  have hclosed : ∀ k v,
      alookup (generate_sources_inner fs (fs.files.length + 2) root []) k = some v →
      ∀ c ∈ v,
        ((alookup (generate_sources_inner fs (fs.files.length + 2) root []) c).isSome ∨
          fs.parse c = none) := by
    intro k v hk
    rcases hmain.2 k v hk with h | h
    · exact absurd h (by simp [alookup])
    · exact h
  have hshape : ∀ k v,
      alookup (generate_sources_inner fs (fs.files.length + 2) root []) k = some v →
      ∃ comps, fs.parse k = some comps ∧ v = depsOf fs k comps := by
    intro k v hk
    have hmem := alookup_mem _ k v hk
    rcases generate_sources_inner_entries fs (fs.files.length + 2) root [] (k, v) hmem with h | h
    · exact absurd h (List.not_mem_nil _)
    · exact h.1
  have hmot : ∀ p c, DependsOn fs p c →
      (alookup (generate_sources_inner fs (fs.files.length + 2) root []) p).isSome →
      c ∈ flattenDeps (generate_sources_inner fs (fs.files.length + 2) root [])
        ∧ ((alookup (generate_sources_inner fs (fs.files.length + 2) root []) c).isSome ∨
            fs.parse c = none) := by
    intro p c hd
    induction hd with
    | @direct p' comps c' hp hc =>
      intro hps
      obtain ⟨v, hv⟩ := Option.isSome_iff_exists.mp hps
      obtain ⟨comps', hp', hv'⟩ := hshape _ _ hv
      rw [hp] at hp'
      injection hp' with hcc
      subst hcc
      constructor
      · rw [mem_flattenDeps]
        exact ⟨(p', v), alookup_mem _ p' v hv, Or.inr (hv' ▸ hc)⟩
      · exact hclosed p' v hv c' (hv' ▸ hc)
    | @trans p' q' c' h1 h2 ih1 ih2 =>
      intro hps
      rcases (ih1 hps).2 with hq | hq
      · exact ih2 hq
      · obtain ⟨comps, hcomps⟩ := DependsOn_parses fs h2
        rw [hq] at hcomps
        exact absurd hcomps (by simp)
  refine ⟨?_, ?_, ?_⟩
  · intro c hd
    rcases hmain.1 with hs | hn
    · exact (hmot root c hd hs).1
    · obtain ⟨comps, hcomps⟩ := DependsOn_parses fs hd
      rw [hn] at hcomps
      exact absurd hcomps (by simp)
  · intro x hx
    have hx' : x ∈ flattenDeps (generate_sources_inner fs (fs.files.length + 2) root []) := hx
    rw [mem_flattenDeps] at hx'
    obtain ⟨kv, hkv, hor⟩ := hx'
    rcases generate_sources_inner_entries fs (fs.files.length + 2) root [] kv hkv with h | h
    · exact absurd h (List.not_mem_nil _)
    · rcases hor with rfl | hv2
      · rcases h.2 with h2 | h2
        · exact Or.inl h2
        · exact Or.inr h2
      · obtain ⟨comps, hp, hdeps⟩ := h.1
        right
        have hmemd : x ∈ depsOf fs kv.1 comps := hdeps ▸ hv2
        exact (List.mem_filter.mp hmemd).2
  · intro g hg
    rw [generate_sources_inner_fuel_ge fs root g hg]
    rfl

/-- C5: a parse failure (or unreadable file) for a path makes the traversal
treat that path as having zero dependencies — the recursive call is a no-op on
the accumulated map, so the traversal of the rest of the graph continues — and
resolving a root whose own file is unreadable yields the empty set (a result
set recording no dependencies), not an error. -/
theorem parse_failure_zero_deps (fs : FSModel) (p : VPath) (h : fs.parse p = none) :
    (∀ (fuel : Nat) (m : DepMap), generate_sources_inner fs fuel p m = m)
    ∧ generate_sources_for fs p = ∅ := by
  have h1 : ∀ (fuel : Nat) (m : DepMap), generate_sources_inner fs fuel p m = m := by
    intro fuel m
    cases fuel with
    | zero => rfl
    | succ fuel =>
      by_cases hv : (alookup m p).isSome
      · simp [generate_sources_inner, hv]
      · simp [generate_sources_inner, hv, h]
  refine ⟨h1, ?_⟩
  unfold generate_sources_for
  rw [h1]
  rfl

theorem generate_sources_inner_congr (fs fs' : FSModel) (h1 : fs.files = fs'.files)
    (h2 : ∀ p, fs.parse p = fs'.parse p) :
    ∀ (fuel : Nat) (p : VPath) (m : DepMap),
      generate_sources_inner fs fuel p m = generate_sources_inner fs' fuel p m := by
  have hdeps : ∀ p comps, depsOf fs p comps = depsOf fs' p comps := by
    intro p comps
    unfold depsOf
    refine List.filter_congr ?_
    intro q _
    unfold FSModel.existsOn
    rw [h1]
  intro fuel
  induction fuel with
  | zero => intro p m; rfl
  | succ fuel ih =>
    intro p m
    by_cases hv : (alookup m p).isSome
    · simp [generate_sources_inner, hv]
    · cases hp : fs.parse p with
      | none =>
        have hp' : fs'.parse p = none := (h2 p).symm.trans hp
        simp [generate_sources_inner, hv, hp, hp']
      | some comps =>
        have hp' : fs'.parse p = some comps := (h2 p).symm.trans hp
        rw [show generate_sources_inner fs (fuel+1) p m =
            List.foldl (fun acc q => generate_sources_inner fs fuel q acc)
              ((p, depsOf fs p comps) :: m) (depsOf fs p comps) by
          simp [generate_sources_inner, hv, hp]]
        rw [show generate_sources_inner fs' (fuel+1) p m =
            List.foldl (fun acc q => generate_sources_inner fs' fuel q acc)
              ((p, depsOf fs' p comps) :: m) (depsOf fs' p comps) by
          simp [generate_sources_inner, hv, hp']]
        have haux : ∀ (l : List VPath) (m0 : DepMap),
            List.foldl (fun acc q => generate_sources_inner fs fuel q acc) m0 l =
              List.foldl (fun acc q => generate_sources_inner fs' fuel q acc) m0 l := by
          intro l
          induction l with
          | nil => intro m0; rfl
          | cons q qs ihq =>
            intro m0
            simp only [List.foldl_cons]
            rw [ih q m0]
            exact ihq _
        rw [hdeps p comps, haux]

/-- C8: dependency resolution is deterministic in the filesystem content: two
resolutions of the same root over oracles with the same existing files and the
same parse results (the filesystem unchanged between the calls) return the same
Dependency Set — resolving twice yields the same set as resolving once. -/
theorem resolution_deterministic (fs fs' : FSModel) (root : VPath)
    (h1 : fs.files = fs'.files) (h2 : ∀ p, fs.parse p = fs'.parse p) :
    generate_sources_for fs root = generate_sources_for fs' root := by
  unfold generate_sources_for
  rw [generate_sources_inner_congr fs fs' h1 h2, h1]

/-! #### Concrete witnesses for the resolver claims -/

def pA : VPath := ⟨["src"], "a.vhd"⟩

def pB : VPath := ⟨["src"], "b.vhd"⟩

def fsEx : FSModel :=
  ⟨[pA, pB], fun p => if p = pA then some ["b"] else if p = pB then some [] else none⟩

def fsEx2 : FSModel :=
  ⟨[pA, pB], fun p => if p = pB then some [] else if p = pA then some ["b"] else none⟩

def fsNone : FSModel := ⟨[], fun _ => none⟩

/-- Witness for C4 on a concrete two-file graph `a.vhd → b.vhd`. -/
theorem resolve_complete_and_sound_witness :
    DependsOn fsEx pA pB
    ∧ pB ∈ generate_sources_for fsEx pA
    ∧ (pB = pA ∨ fsEx.existsOn pB = true)
    ∧ flattenDeps (generate_sources_inner fsEx 10 pA []) = generate_sources_for fsEx pA := by
  have hd : DependsOn fsEx pA pB := @DependsOn.direct fsEx pA ["b"] pB (by decide) (by decide)
  exact ⟨hd, (resolve_complete_and_sound fsEx pA).1 pB hd,
    (resolve_complete_and_sound fsEx pA).2.1 pB ((resolve_complete_and_sound fsEx pA).1 pB hd),
    (resolve_complete_and_sound fsEx pA).2.2 10 (by decide)⟩

/-- Witness for C5: an oracle in which every file is unreadable. -/
theorem parse_failure_zero_deps_witness :
    fsNone.parse pA = none
    ∧ generate_sources_inner fsNone 5 pA [] = []
    ∧ generate_sources_for fsNone pA = ∅ :=
  ⟨rfl, (parse_failure_zero_deps fsNone pA rfl).1 5 [],
    (parse_failure_zero_deps fsNone pA rfl).2⟩

/-- Witness for C8: two syntactically different oracles with identical content
resolve identically. -/
theorem resolution_deterministic_witness :
    generate_sources_for fsEx pA = generate_sources_for fsEx2 pA := by
  refine resolution_deterministic fsEx fsEx2 pA rfl ?_
  intro p
  by_cases h1 : p = pA
  · subst h1; decide
  · by_cases h2 : p = pB
    · subst h2; decide
    · simp [fsEx, fsEx2, h1, h2]

end Gb
